import Mathlib

/-!
Shallow embedding of the epftoolbox2 data-pipeline core
(`epftoolbox2/pipelines/data_pipeline.py` and the transformer
`epftoolbox2/data/transformers/resample.py`), together with a model of the
`CacheManager` collaborator, which is imported by the pipeline but whose
module is not part of the source tree; it is modelled from the
specification (interval arithmetic, cache store, key derivation).

Timestamps are integers (UTC minutes); tabular data is a list of rows,
each row a timestamp paired with named rational fields; fallible fetches
return `Except`.
-/

/-- A pandas `DataFrame`, as it flows through the pipeline: rows keyed by an
integer UTC timestamp, each row a list of named rational fields.  A missing
field at a timestamp (a null after the outer join) is simply absent from the
row's association list. -/
abbrev Table := List (Int × List (String × ℚ))

/-- A source's cache configuration, as returned by `get_cache_config`:
a mapping of parameter names to values. -/
abbrev Config := List (String × String)

abbrev CacheKey := Config

/-- A half-open time range `[start, end)`. -/
abbrev TimeRange := Int × Int

/-- A coverage index: the list of time ranges already cached for one key. -/
abbrev Coverage := List TimeRange

/-- The point `t` lies in one of the half-open ranges of `rs`. -/
def inRanges (rs : Coverage) (t : Int) : Prop :=
  ∃ r ∈ rs, r.1 ≤ t ∧ t < r.2

instance (rs : Coverage) (t : Int) : Decidable (inRanges rs t) := by
  unfold inRanges; infer_instance

/-- Well-formed coverage (spec §3 `CoverageIndex` invariant): ranges sorted
and pairwise ordered, and each range nonempty. -/
def CovOK (cov : Coverage) : Prop :=
  cov.Pairwise (fun r1 r2 => r1.2 ≤ r2.1) ∧ ∀ r ∈ cov, r.1 < r.2

/-- Modelled from the spec: `IntervalSet.missing` of the `CacheManager`
module, which is absent from the source tree.  Returns the ordered disjoint
sub-ranges of `[s, e)` not covered by `cov` (spec §4.1). -/
def missingRanges (s e : Int) : Coverage → Coverage
  | [] => if s < e then [(s, e)] else []
  | (a, b) :: rest =>
    if b ≤ s then missingRanges s e rest
    else if e ≤ a then (if s < e then [(s, e)] else [])
    else (if s < a then [(s, a)] else []) ++ missingRanges (max s b) e rest

/-- Modelled from the spec: `IntervalSet.union` of the `CacheManager`
module, which is absent from the source tree.  Inserts a range into a
coverage index, coalescing overlapping or adjacent ranges (spec §4.1). -/
def unionRange : Coverage → TimeRange → Coverage
  | [], r => [r]
  | (a, b) :: rest, (s, e) =>
    if e < a then (s, e) :: (a, b) :: rest
    else if b < s then (a, b) :: unionRange rest (s, e)
    else unionRange rest (min a s, max b e)

/-- Modelled from the spec: `CacheManager.get_cache_key` is a deterministic
function of the source's cache config (spec §4.2); its derivation details
are not in the source tree, so the config itself serves as the key. -/
def CacheManager.getCacheKey (cfg : Config) : CacheKey := cfg

/-- The durable cache store's state: per cache key, a coverage index and the
stored rows.  Modelled from the spec (§4.3 `CacheStore`). -/
abbrev CacheState := List (CacheKey × (Coverage × Table))

def coverageOf (cm : CacheState) (k : CacheKey) : Coverage :=
  ((cm.lookup k).map Prod.fst).getD []

def rowsOf (cm : CacheState) (k : CacheKey) : Table :=
  ((cm.lookup k).map Prod.snd).getD []

/-- Modelled from the spec: `CacheManager.find_missing_ranges` (spec §4.4
step 2). -/
def CacheManager.findMissingRanges (cm : CacheState) (k : CacheKey)
    (s e : Int) : Coverage :=
  missingRanges s e (coverageOf cm k)

/-- Modelled from the spec: `CacheManager.read_cached_data` returns only the
rows whose timestamp falls within the requested range, and an empty table
for an unknown key (spec §4.3). -/
def CacheManager.readCachedData (cm : CacheState) (k : CacheKey)
    (s e : Int) : Table :=
  (rowsOf cm k).filter (fun r => decide (s ≤ r.1 ∧ r.1 < e))

def insertRow (r : Int × List (String × ℚ)) : Table → Table
  | [] => [r]
  | q :: qs => if r.1 ≤ q.1 then r :: q :: qs else q :: insertRow r qs

/-- Modelled from the spec: row merge on write — new rows win over old on
exact timestamp collision, storage stays sorted by timestamp (spec §4.3). -/
def upsertRows (old fresh : Table) : Table :=
  fresh.foldl
    (fun acc r => insertRow r (acc.filter (fun q => decide (q.1 ≠ r.1)))) old

/-- Modelled from the spec: `CacheManager.write_cache` persists the fetched
table for the written range and extends the coverage index via interval
union (spec §4.3). -/
def CacheManager.writeCache (cm : CacheState) (k : CacheKey) (df : Table)
    (ws we : Int) : CacheState :=
  (k, (unionRange (coverageOf cm k) (ws, we), upsertRows (rowsOf cm k) df)) ::
    cm.filter (fun p => decide (p.1 ≠ k))

/-- The cache-hit classification logged by `_fetch_with_cache`; `bypass`
marks a source with no cache config (no classification is logged). -/
inductive HitClass
  | fullHit
  | miss
  | partialHit
  | bypass
deriving DecidableEq, Repr

/-- A data source: `get_cache_config` (`none` disables caching) and a
fallible `fetch`. -/
structure Source where
  cacheConfig : Option Config
  fetch : Int → Int → Except Unit Table

/-- Result of one `_fetch_with_cache` call: the returned table, the cache
state after any writes, the list of ranges passed to `source.fetch`, and
the logged classification. -/
structure FetchOut where
  df : Table
  cm : CacheState
  calls : List TimeRange
  hc : HitClass

/-- `DataPipeline._fetch_with_cache`: bypass when the source declares no
cache config; otherwise compute the missing ranges, fetch each one in
ascending order (writing non-empty results), and re-read the full requested
range from the store.  A raised fetch error short-circuits, as in the
source (no exception handling around `source.fetch`). -/
def DataPipeline.fetchWithCache (src : Source) (s e : Int)
    (cm : CacheState) : Except Unit FetchOut :=
  match src.cacheConfig with
  | none => (src.fetch s e).map (fun df => ⟨df, cm, [(s, e)], .bypass⟩)
  | some cfg =>
    let k := CacheManager.getCacheKey cfg
    let missing := CacheManager.findMissingRanges cm k s e
    if missing = [] then
      .ok ⟨CacheManager.readCachedData cm k s e, cm, [], .fullHit⟩
    else
      let hc : HitClass := if missing = [(s, e)] then .miss else .partialHit
      (missing.foldlM
        (fun acc r =>
          (src.fetch r.1 r.2).map
            (fun fdf =>
              if fdf = [] then acc
              else CacheManager.writeCache acc k fdf r.1 r.2))
        cm).map
        (fun cm2 => ⟨CacheManager.readCachedData cm2 k s e, cm2, missing, hc⟩)

/-- A pandas timestamp: a wall-clock reading plus an optional UTC offset in
minutes (`none` = timezone-naive). -/
structure PTimestamp where
  wall : Int
  tz : Option Int
deriving DecidableEq, Repr

/-- A `start`/`end` argument of `DataPipeline.run`: a string or a
timestamp. -/
inductive TSInput
  | str (s : String)
  | ts (t : PTimestamp)

def minutesPerDay : Int := 1440

/-- `DataPipeline._parse_timestamp`: the literal string `"today"` becomes
the current date at midnight UTC (`pd.Timestamp("today", tz="UTC")
.normalize()`); any other string is parsed and localized to UTC
(`strVal` models the string-to-instant parse); a timezone-aware timestamp
is converted to UTC, a naive one localized (assumed UTC). -/
def DataPipeline.parseTimestamp (now : Int) (strVal : String → Int) :
    TSInput → PTimestamp
  | .str s =>
    if s = "today" then ⟨minutesPerDay * Int.fdiv now minutesPerDay, some 0⟩
    else ⟨strVal s, some 0⟩
  | .ts t =>
    match t.tz with
    | some ofs => ⟨t.wall - ofs, some 0⟩
    | none => ⟨t.wall, some 0⟩

/-- Insert a timestamp into a sorted, duplicate-free list. -/
def insertTs (t : Int) : List Int → List Int
  | [] => [t]
  | u :: us =>
    if t = u then u :: us
    else if t < u then t :: u :: us
    else u :: insertTs t us

/-- The sorted union of the time indices of several tables. -/
def tsUnion (dfs : List Table) : List Int :=
  (dfs.flatMap (fun df => df.map Prod.fst)).foldr insertTs []

/-- The named fields a table carries at timestamp `t` (empty when the table
has no row there). -/
def rowAt (df : Table) (t : Int) : List (String × ℚ) :=
  (df.lookup t).getD []

/-- `pd.concat(dataframes, axis=1)` on tables with unique sorted indices:
the full outer join on the time index — one row per timestamp in the union,
holding each table's fields where that table has a row and nothing (null)
where it does not. -/
def mergeTables (dfs : List Table) : Table :=
  (tsUnion dfs).map (fun t => (t, dfs.flatMap (fun df => rowAt df t)))

/-- A validator's report: `validate(table) -> ValidationResult`. -/
structure ValidationResult where
  is_valid : Bool
  errors : List String
  warnings : List String
deriving DecidableEq

abbrev Transformer := Table → Table

abbrev Validator := Table → ValidationResult

/-- The pipeline object: configured sources, transformers and validators. -/
structure DataPipeline where
  sources : List Source
  transformers : List Transformer
  validators : List Validator

/-- The `cache` argument of `run`: `False`, `True` (range cache), or a file
path (snapshot); the snapshot file's content is passed separately. -/
inductive CacheArg
  | off
  | mem
  | snap
deriving DecidableEq, Repr

/-- Errors raised by `run`: the `ValueError`s for no sources and for an
inverted range, and a propagated source-fetch exception. -/
inductive RunErr
  | noSources
  | invalidRange
  | fetchFailure
deriving DecidableEq, Repr

/-- Observable outcome of a successful `run`: the returned table, every
range passed to some `source.fetch`, the snapshot written (if any), and
the validator reports that were logged. -/
structure RunOut where
  table : Table
  calls : List TimeRange
  wrote : Option Table
  reports : List ValidationResult

/-- The per-source fetch loop of `run`: `_fetch_with_cache` when `cache is
True`, direct `source.fetch` otherwise; only non-empty results are kept for
the merge.  `cm0` is the durable cache store's content when the run's
`CacheManager()` attaches to it. -/
def fetchStage (useCache : Bool) (srcs : List Source) (s e : Int)
    (cm0 : CacheState) : Except Unit (List Table × CacheState × List TimeRange) :=
  match srcs with
  | [] => .ok ([], cm0, [])
  | src :: rest => do
    let head ←
      if useCache then
        (DataPipeline.fetchWithCache src s e cm0).map
          (fun out => (out.df, out.cm, out.calls))
      else
        (src.fetch s e).map (fun df => (df, cm0, [(s, e)]))
    let tail ← fetchStage useCache rest s e head.2.1
    pure ((if head.1 = [] then [] else [head.1]) ++ tail.1,
          tail.2.1, head.2.2 ++ tail.2.2)

/-- `DataPipeline.run`: require at least one source, normalize both bounds
to UTC, reject an inverted or empty range, short-circuit on an existing
snapshot file, otherwise fetch (with or without the range cache), keep the
non-empty tables, return an empty table if there are none, else outer-join
them, apply transformers in order, log validator reports, and write the
snapshot file when a path was supplied. -/
def DataPipeline.run (p : DataPipeline) (a b : TSInput) (carg : CacheArg)
    (now : Int) (strVal : String → Int) (snap : Option Table)
    (cm0 : CacheState) : Except RunErr RunOut :=
  if p.sources.isEmpty then .error .noSources
  else
    let s := DataPipeline.parseTimestamp now strVal a
    let e := DataPipeline.parseTimestamp now strVal b
    if e.wall ≤ s.wall then .error .invalidRange
    else
      match carg, snap with
      | .snap, some df => .ok ⟨df, [], none, []⟩
      | _, _ =>
        match fetchStage (carg = .mem) p.sources s.wall e.wall cm0 with
        | .error _ => .error .fetchFailure
        | .ok (dfs, _, calls) =>
          if dfs.isEmpty then .ok ⟨[], calls, none, []⟩
          else
            let merged := mergeTables dfs
            let result := p.transformers.foldl (fun acc tr => tr acc) merged
            let reports := p.validators.map (fun v => v result)
            .ok ⟨result, calls,
                 if carg = .snap then some result else none, reports⟩

/-- Rounding to 3 decimal places, as applied by `DataFrame.round(3)`. -/
def round3 (q : ℚ) : ℚ := (round (q * 1000) : ℤ) / 1000

/-- A single-index numeric `DataFrame` for the resample transformer: a time
index and equally long columns of optional (`NaN`-able) values. -/
structure RDF where
  idx : List Int
  cols : List (List (Option ℚ))
deriving DecidableEq

/-- The gap-filling method of `ResampleTransformer` (`linear`, `ffill`,
`bfill`; any other string is rejected by `_validate_method`). -/
inductive FillMethod
  | linear
  | ffill
  | bfill
deriving DecidableEq

/-- The resample grid of `df.resample(freq).asfreq()`: multiples of `freq`
from the floor of the smallest index entry to the floor of the largest. -/
def gridOf (f : Int) (idx : List Int) : List Int :=
  match idx with
  | [] => []
  | t :: ts =>
    let lo := f * Int.fdiv (ts.foldl min t) f
    let hi := f * Int.fdiv (ts.foldl max t) f
    (List.range (((hi - lo) / f).toNat + 1)).map (fun k => lo + f * (k : Int))

/-- The value `asfreq` places at grid point `t`: the original cell when `t`
is an index entry, `NaN` otherwise. -/
def colAt (idx : List Int) (col : List (Option ℚ)) (t : Int) : Option ℚ :=
  match idx.findIdx? (fun u => decide (u = t)) with
  | some i => (col.get? i).join
  | none => none

/-- `Series.ffill`: propagate the last valid value forward; leading `NaN`s
stay. -/
def ffillCol (last : Option ℚ) : List (Option ℚ) → List (Option ℚ)
  | [] => []
  | some v :: rest => some v :: ffillCol (some v) rest
  | none :: rest => last :: ffillCol last rest

/-- `Series.bfill`: propagate the next valid value backward; trailing
`NaN`s stay. -/
def bfillCol (col : List (Option ℚ)) : List (Option ℚ) :=
  (ffillCol none col.reverse).reverse

def prevKnown (col : List (Option ℚ)) (i : Nat) : Option (Nat × ℚ) :=
  ((col.take i).enum.reverse).findSome? (fun p => p.2.map (fun v => (p.1, v)))

def nextKnown (col : List (Option ℚ)) (i : Nat) : Option (Nat × ℚ) :=
  (col.enum.drop (i + 1)).findSome? (fun p => p.2.map (fun v => (p.1, v)))

/-- `Series.interpolate(method="linear")` at position `i`: keep a valid
value; fill a `NaN` between two valid neighbours by position-weighted
linear interpolation; carry the last valid value into trailing `NaN`s;
leave leading `NaN`s unfilled. -/
def interpAt (col : List (Option ℚ)) (i : Nat) : Option ℚ :=
  match col.get? i with
  | some (some v) => some v
  | some none =>
    match prevKnown col i, nextKnown col i with
    | some (j, a), some (n, b) =>
      some (a + (b - a) * ((i : ℚ) - (j : ℚ)) / ((n : ℚ) - (j : ℚ)))
    | some (_, a), none => some a
    | none, _ => none
  | none => none

def linearCol (col : List (Option ℚ)) : List (Option ℚ) :=
  (List.range col.length).map (interpAt col)

def applyFill : FillMethod → List (Option ℚ) → List (Option ℚ)
  | .linear => linearCol
  | .ffill => ffillCol none
  | .bfill => bfillCol

/-- `ResampleTransformer.transform`: resample to the target frequency
(`resample(freq).asfreq()`), fill gaps by the configured method, and round
every value to 3 decimal places (`result.round(3)`). -/
def ResampleTransformer.transform (freq : Int) (method : FillMethod)
    (df : RDF) : RDF :=
  let g := gridOf freq df.idx
  let asfreq := df.cols.map (fun col => g.map (colAt df.idx col))
  let filled := asfreq.map (applyFill method)
  ⟨g, filled.map (List.map (Option.map round3))⟩

/-- All (non-null) values held in an `RDF`. -/
def RDF.values (df : RDF) : List ℚ :=
  df.cols.flatMap (List.filterMap id)

/-- A stub data source returning a fixed table on every fetch, with caching
not supported: instantiates `run` with arbitrary per-source results. -/
def tableSource (df : Table) : Source :=
  ⟨none, fun _ _ => .ok df⟩

theorem inRanges_nil (t : Int) : ¬ inRanges [] t := by
  simp [inRanges]

theorem inRanges_cons {r : TimeRange} {rs : Coverage} {t : Int} :
    inRanges (r :: rs) t ↔ (r.1 ≤ t ∧ t < r.2) ∨ inRanges rs t := by
  simp [inRanges]

theorem inRanges_append {l1 l2 : Coverage} {t : Int} :
    inRanges (l1 ++ l2) t ↔ inRanges l1 t ∨ inRanges l2 t := by
  simp [inRanges, or_and_right, exists_or]

theorem inRanges_singleton {a b t : Int} :
    inRanges [(a, b)] t ↔ a ≤ t ∧ t < b := by
  simp [inRanges]

theorem inRanges_cons_pair {a b : Int} {rs : Coverage} {t : Int} :
    inRanges ((a, b) :: rs) t ↔ (a ≤ t ∧ t < b) ∨ inRanges rs t := by
  simp [inRanges]

/-- Pointwise correctness of `missingRanges` over a well-formed coverage:
a point lies in some missing sub-range exactly when it lies in the request
and is not covered. -/
theorem inRanges_missingRanges :
    ∀ {cov : Coverage}, CovOK cov → ∀ {s e t : Int},
    (inRanges (missingRanges s e cov) t ↔ s ≤ t ∧ t < e ∧ ¬ inRanges cov t) := by
  intro cov
  induction cov with
  | nil =>
    intro _ s e t
    simp only [missingRanges]
    split_ifs with h
    · rw [inRanges_singleton]
      simp only [inRanges, List.not_mem_nil, false_and, exists_false,
        not_false_iff, and_true]
    · constructor
      · intro hv
        exact (inRanges_nil t hv).elim
      · rintro ⟨u1, u2, _⟩
        exact absurd (by omega : s < e) h
  | cons hd rest ih =>
    rintro ⟨hp, hne⟩ s e t
    obtain ⟨a, b⟩ := hd
    rw [List.pairwise_cons] at hp
    have hab : a < b := hne (a, b) (List.mem_cons_self _ _)
    have hrest : CovOK rest :=
      ⟨hp.2, fun r hr => hne r (List.mem_cons_of_mem _ hr)⟩
    have hge : ∀ r ∈ rest, b ≤ r.1 := fun r hr => hp.1 r hr
    simp only [missingRanges]
    split_ifs with h1 h2 h3 h4
    · -- b ≤ s : the head range lies entirely before the request
      rw [ih hrest, inRanges_cons_pair]
      constructor
      · rintro ⟨u1, u2, u3⟩
        refine ⟨u1, u2, ?_⟩
        rintro (⟨v1, v2⟩ | hv)
        · omega
        · exact u3 hv
      · rintro ⟨u1, u2, u3⟩
        exact ⟨u1, u2, fun hv => u3 (Or.inr hv)⟩
    · -- e ≤ a, s < e : the whole request is missing
      rw [inRanges_singleton, inRanges_cons_pair]
      constructor
      · rintro ⟨u1, u2⟩
        refine ⟨u1, u2, ?_⟩
        rintro (⟨v1, v2⟩ | ⟨r, hr, hr1, hr2⟩)
        · omega
        · have := hge r hr
          omega
      · rintro ⟨u1, u2, _⟩
        exact ⟨u1, u2⟩
    · -- e ≤ a, ¬ s < e : empty request, nothing missing
      constructor
      · intro hv
        exact (inRanges_nil t hv).elim
      · rintro ⟨u1, u2, _⟩
        exact absurd (by omega : s < e) h3
    · -- a < e, s < b, s < a : emit [s, a), recurse past b
      rw [inRanges_append, ih hrest]
      constructor
      · rintro (hv | ⟨u1, u2, u3⟩)
        · obtain ⟨u1, u2⟩ := inRanges_singleton.mp hv
          refine ⟨u1, by omega, fun hc => ?_⟩
          rcases inRanges_cons_pair.mp hc with ⟨v1, v2⟩ | ⟨r, hr, hr1, hr2⟩
          · omega
          · have := hge r hr
            omega
        · refine ⟨by omega, u2, fun hc => ?_⟩
          rcases inRanges_cons_pair.mp hc with ⟨v1, v2⟩ | hv'
          · omega
          · exact u3 hv'
      · rintro ⟨u1, u2, u3⟩
        by_cases hta : t < a
        · exact Or.inl (inRanges_singleton.mpr ⟨u1, hta⟩)
        · have htb : b ≤ t := by
            by_contra hc
            exact u3 (inRanges_cons_pair.mpr (Or.inl ⟨by omega, by omega⟩))
          exact Or.inr ⟨by omega, u2,
            fun hv => u3 (inRanges_cons_pair.mpr (Or.inr hv))⟩
    · -- a < e, s < b, a ≤ s : nothing to emit before b, recurse past b
      rw [inRanges_append, ih hrest]
      constructor
      · rintro (hv | ⟨u1, u2, u3⟩)
        · exact (inRanges_nil t hv).elim
        · refine ⟨by omega, u2, fun hc => ?_⟩
          rcases inRanges_cons_pair.mp hc with ⟨v1, v2⟩ | hv'
          · omega
          · exact u3 hv'
      · rintro ⟨u1, u2, u3⟩
        have htb : b ≤ t := by
          by_contra hc
          exact u3 (inRanges_cons_pair.mpr (Or.inl ⟨by omega, by omega⟩))
        exact Or.inr ⟨by omega, u2,
          fun hv => u3 (inRanges_cons_pair.mpr (Or.inr hv))⟩

/-- Every sub-range produced by `missingRanges` is nonempty. -/
theorem missingRanges_pos :
    ∀ (cov : Coverage) (s e : Int), ∀ r ∈ missingRanges s e cov, r.1 < r.2 := by
  intro cov
  induction cov with
  | nil =>
    intro s e r hr
    simp only [missingRanges] at hr
    split_ifs at hr with h
    · rw [List.mem_singleton] at hr
      subst hr
      exact h
    · simp at hr
  | cons hd rest ih =>
    intro s e r hr
    obtain ⟨a, b⟩ := hd
    simp only [missingRanges] at hr
    split_ifs at hr with h1 h2 h3 h4
    · exact ih s e r hr
    · rw [List.mem_singleton] at hr
      subst hr
      exact h3
    · simp at hr
    · rw [List.mem_append] at hr
      rcases hr with hr | hr
      · rw [List.mem_singleton] at hr
        subst hr
        exact h4
      · exact ih (max s b) e r hr
    · rw [List.nil_append] at hr
      exact ih (max s b) e r hr

/-- A fully covered request has no missing sub-ranges. -/
theorem missingRanges_eq_nil {cov : Coverage} (hwf : CovOK cov) {s e : Int}
    (h : ∀ t, s ≤ t → t < e → inRanges cov t) :
    missingRanges s e cov = [] := by
  cases hm : missingRanges s e cov with
  | nil => rfl
  | cons r rs =>
    have hr : r.1 < r.2 :=
      missingRanges_pos cov s e r (by rw [hm]; exact List.mem_cons_self _ _)
    have hmem : inRanges (missingRanges s e cov) r.1 := by
      rw [hm]
      exact ⟨r, List.mem_cons_self _ _, le_refl _, hr⟩
    rw [inRanges_missingRanges hwf] at hmem
    exact absurd (h r.1 hmem.1 hmem.2.1) hmem.2.2

/-- Pointwise correctness of `unionRange`: the result covers exactly the
old coverage plus the inserted range. -/
theorem inRanges_unionRange :
    ∀ (cov : Coverage) (q : TimeRange) (t : Int),
    (inRanges (unionRange cov q) t ↔ inRanges cov t ∨ (q.1 ≤ t ∧ t < q.2)) := by
  intro cov
  induction cov with
  | nil =>
    intro q t
    obtain ⟨s, e⟩ := q
    simp only [unionRange]
    rw [inRanges_singleton]
    constructor
    · intro h
      exact Or.inr h
    · rintro (hv | hv)
      · exact (inRanges_nil t hv).elim
      · exact hv
  | cons hd rest ih =>
    intro q t
    obtain ⟨a, b⟩ := hd
    obtain ⟨s, e⟩ := q
    simp only [unionRange]
    split_ifs with h1 h2
    · -- e < a : prepend the new range untouched
      rw [inRanges_cons_pair, inRanges_cons_pair]
      constructor
      · rintro (hv | hv)
        · exact Or.inr hv
        · exact Or.inl hv
      · rintro (hv | hv)
        · exact Or.inr hv
        · exact Or.inl hv
    · -- b < s : keep the head, insert into the tail
      rw [inRanges_cons_pair, ih (s, e) t, inRanges_cons_pair]
      constructor
      · rintro (hv | hv' | hv')
        · exact Or.inl (Or.inl hv)
        · exact Or.inl (Or.inr hv')
        · exact Or.inr hv'
      · rintro ((hv | hv') | hv')
        · exact Or.inl hv
        · exact Or.inr (Or.inl hv')
        · exact Or.inr (Or.inr hv')
    · -- overlap or adjacency : merge and continue
      rw [ih (min a s, max b e) t, inRanges_cons_pair]
      have harith : (min a s ≤ t ∧ t < max b e) ↔
          ((a ≤ t ∧ t < b) ∨ (s ≤ t ∧ t < e)) := by omega
      constructor
      · rintro (hv | hv)
        · exact Or.inl (Or.inr hv)
        · rcases harith.mp hv with hv' | hv'
          · exact Or.inl (Or.inl hv')
          · exact Or.inr hv'
      · rintro ((hv | hv) | hv)
        · exact Or.inr (harith.mpr (Or.inl hv))
        · exact Or.inl hv
        · exact Or.inr (harith.mpr (Or.inr hv))

/-- Every range of `unionRange cov (s, e)` starts no earlier than `c`, when
that holds of `cov` and of `s`. -/
theorem unionRange_starts_ge (c : Int) :
    ∀ (cov : Coverage) (s e : Int), (∀ r ∈ cov, c ≤ r.1) → c ≤ s →
    ∀ r ∈ unionRange cov (s, e), c ≤ r.1 := by
  intro cov
  induction cov with
  | nil =>
    intro s e _ hs r hr
    simp only [unionRange] at hr
    rw [List.mem_singleton] at hr
    subst hr
    exact hs
  | cons hd rest ih =>
    intro s e hcov hs r hr
    obtain ⟨a, b⟩ := hd
    simp only [unionRange] at hr
    split_ifs at hr with h1 h2
    · rcases List.mem_cons.mp hr with hr | hr
      · subst hr
        exact hs
      · exact hcov r hr
    · rcases List.mem_cons.mp hr with hr | hr
      · subst hr
        exact hcov (a, b) (List.mem_cons_self _ _)
      · exact ih s e (fun r' hr' => hcov r' (List.mem_cons_of_mem _ hr')) hs r hr
    · refine ih (min a s) (max b e)
        (fun r' hr' => hcov r' (List.mem_cons_of_mem _ hr')) ?_ r hr
      have := hcov (a, b) (List.mem_cons_self _ _)
      omega

/-- `unionRange` preserves coverage well-formedness when the inserted range
is nonempty. -/
theorem covOK_unionRange :
    ∀ {cov : Coverage}, CovOK cov → ∀ {s e : Int}, s < e →
    CovOK (unionRange cov (s, e)) := by
  intro cov
  induction cov with
  | nil =>
    intro _ s e hse
    exact ⟨List.pairwise_singleton _ _, by
      intro r hr
      simp only [unionRange] at hr
      rw [List.mem_singleton] at hr
      subst hr
      exact hse⟩
  | cons hd rest ih =>
    rintro ⟨hp, hne⟩ s e hse
    obtain ⟨a, b⟩ := hd
    rw [List.pairwise_cons] at hp
    have hab : a < b := hne (a, b) (List.mem_cons_self _ _)
    have hrest : CovOK rest :=
      ⟨hp.2, fun r hr => hne r (List.mem_cons_of_mem _ hr)⟩
    have hge : ∀ r ∈ rest, b ≤ r.1 := fun r hr => hp.1 r hr
    simp only [unionRange]
    split_ifs with h1 h2
    · -- e < a
      refine ⟨?_, ?_⟩
      · rw [List.pairwise_cons]
        refine ⟨?_, List.pairwise_cons.mpr ⟨hge, hp.2⟩⟩
        intro r hr
        rcases List.mem_cons.mp hr with hr | hr
        · subst hr
          exact le_of_lt h1
        · have := hge r hr
          omega
      · intro r hr
        rcases List.mem_cons.mp hr with hr | hr
        · subst hr
          exact hse
        · exact hne r hr
    · -- b < s
      have hu := ih hrest hse
      refine ⟨?_, ?_⟩
      · rw [List.pairwise_cons]
        exact ⟨unionRange_starts_ge b rest s e hge (le_of_lt h2), hu.1⟩
      · intro r hr
        rcases List.mem_cons.mp hr with hr | hr
        · subst hr
          exact hab
        · exact hu.2 r hr
    · -- merge
      exact ih hrest (by omega)

/-- Pointwise description of folding `unionRange` over a list of ranges. -/
theorem inRanges_foldl_unionRange :
    ∀ (rs : List TimeRange) (cov : Coverage) (t : Int),
    (inRanges (rs.foldl unionRange cov) t ↔ inRanges cov t ∨ inRanges rs t) := by
  intro rs
  induction rs with
  | nil =>
    intro cov t
    simp only [List.foldl_nil]
    constructor
    · exact Or.inl
    · rintro (hv | hv)
      · exact hv
      · exact (inRanges_nil t hv).elim
  | cons r rs ih =>
    intro cov t
    rw [List.foldl_cons, ih, inRanges_unionRange, inRanges_cons]
    tauto

/-- Folding `unionRange` over nonempty ranges preserves well-formedness. -/
theorem covOK_foldl_unionRange :
    ∀ (rs : List TimeRange) (cov : Coverage), CovOK cov →
    (∀ r ∈ rs, r.1 < r.2) → CovOK (rs.foldl unionRange cov) := by
  intro rs
  induction rs with
  | nil =>
    intro cov hcov _
    exact hcov
  | cons r rs ih =>
    intro cov hcov hpos
    rw [List.foldl_cons]
    have : CovOK (unionRange cov r) := by
      have := covOK_unionRange hcov (hpos r (List.mem_cons_self _ _))
      exact this
    exact ih _ this (fun r' hr' => hpos r' (List.mem_cons_of_mem _ hr'))

theorem coverageOf_writeCache (cm : CacheState) (k : CacheKey) (df : Table)
    (ws we : Int) :
    coverageOf (CacheManager.writeCache cm k df ws we) k =
      unionRange (coverageOf cm k) (ws, we) := by
  simp [CacheManager.writeCache, coverageOf, List.lookup]

/-- The cache state after writing `F r.1 r.2` for each range in `rs`, in
order. -/
def writeAll (k : CacheKey) (F : Int → Int → Table) (cm : CacheState)
    (rs : List TimeRange) : CacheState :=
  rs.foldl (fun acc r => CacheManager.writeCache acc k (F r.1 r.2) r.1 r.2) cm

theorem coverageOf_writeAll (k : CacheKey) (F : Int → Int → Table) :
    ∀ (rs : List TimeRange) (cm : CacheState),
    coverageOf (writeAll k F cm rs) k = rs.foldl unionRange (coverageOf cm k) := by
  intro rs
  induction rs with
  | nil =>
    intro cm
    rfl
  | cons r rs ih =>
    intro cm
    simp only [writeAll, List.foldl_cons] at *
    rw [ih, coverageOf_writeCache]

/-- When every fetch succeeds with a non-empty table, the fetch loop of
`_fetch_with_cache` reduces to the pure sequence of cache writes. -/
theorem foldlM_fetch_writes (src : Source) (k : CacheKey)
    (F : Int → Int → Table) (hF : ∀ a b, src.fetch a b = .ok (F a b)) :
    ∀ (rs : List TimeRange) (cm : CacheState), (∀ r ∈ rs, F r.1 r.2 ≠ []) →
    (List.foldlM
      (fun acc r =>
        (src.fetch r.1 r.2).map
          (fun fdf => if fdf = [] then acc
            else CacheManager.writeCache acc k fdf r.1 r.2))
      cm rs) = .ok (writeAll k F cm rs) := by
  intro rs
  induction rs with
  | nil =>
    intro cm _
    rfl
  | cons r rs ih =>
    intro cm hne
    have hr : F r.1 r.2 ≠ [] := hne r (List.mem_cons_self _ _)
    rw [List.foldlM_cons, hF, writeAll, List.foldl_cons]
    simp only [Except.map, if_neg hr]
    rw [show ∀ (x : CacheState) (g : CacheState → Except Unit CacheState),
        Except.ok x >>= g = g x from fun _ _ => rfl]
    exact ih _ (fun r' hr' => hne r' (List.mem_cons_of_mem _ hr'))

theorem findMissingRanges_writeAll (k : CacheKey) (F : Int → Int → Table)
    (s e : Int) (cm0 : CacheState)
    (hwf : CovOK (coverageOf cm0 k)) :
    CacheManager.findMissingRanges
      (writeAll k F cm0 (CacheManager.findMissingRanges cm0 k s e)) k s e = [] := by
  set miss := CacheManager.findMissingRanges cm0 k s e with hmiss
  have hpos : ∀ r ∈ miss, r.1 < r.2 :=
    fun r hr => missingRanges_pos (coverageOf cm0 k) s e r hr
  have hcov1 : coverageOf (writeAll k F cm0 miss) k =
      miss.foldl unionRange (coverageOf cm0 k) :=
    coverageOf_writeAll k F miss cm0
  have hwf1 : CovOK (coverageOf (writeAll k F cm0 miss) k) := by
    rw [hcov1]
    exact covOK_foldl_unionRange miss _ hwf hpos
  apply missingRanges_eq_nil hwf1
  intro t ht1 ht2
  rw [hcov1, inRanges_foldl_unionRange]
  by_cases hc : inRanges (coverageOf cm0 k) t
  · exact Or.inl hc
  · exact Or.inr ((inRanges_missingRanges hwf).mpr ⟨ht1, ht2, hc⟩)

/--
C2 (amended): with caching enabled and a valid range, if every fetched
sub-range returns a non-empty table, running the same fetch twice in a row
performs zero `source.fetch` calls the second time (the second run finds no
missing ranges, a full hit), changes nothing in the cache, and returns data
identical to the first run's result.
-/
theorem fetch_with_cache_idempotent (src : Source) (cfg : Config)
    (s e : Int) (cm0 : CacheState) (F : Int → Int → Table)
    (hcfg : src.cacheConfig = some cfg)
    (hwf : CovOK (coverageOf cm0 (CacheManager.getCacheKey cfg)))
    (hF : ∀ a b, src.fetch a b = .ok (F a b))
    (hne : ∀ a b, a < b → F a b ≠ []) :
    ∃ out1 : FetchOut,
      DataPipeline.fetchWithCache src s e cm0 = .ok out1 ∧
      DataPipeline.fetchWithCache src s e out1.cm =
        .ok ⟨out1.df, out1.cm, [], .fullHit⟩ := by
  set k := CacheManager.getCacheKey cfg with hk
  by_cases hm : CacheManager.findMissingRanges cm0 k s e = []
  · refine ⟨⟨CacheManager.readCachedData cm0 k s e, cm0, [], .fullHit⟩, ?_, ?_⟩
    · simp only [DataPipeline.fetchWithCache, hcfg]
      rw [← hk, if_pos hm]
    · simp only [DataPipeline.fetchWithCache, hcfg]
      rw [← hk, if_pos hm]
  · set miss := CacheManager.findMissingRanges cm0 k s e with hmiss
    have hpos : ∀ r ∈ miss, r.1 < r.2 :=
      fun r hr => missingRanges_pos (coverageOf cm0 k) s e r hr
    refine ⟨⟨CacheManager.readCachedData (writeAll k F cm0 miss) k s e,
      writeAll k F cm0 miss, miss,
      if miss = [(s, e)] then .miss else .partialHit⟩, ?_, ?_⟩
    · simp only [DataPipeline.fetchWithCache, hcfg]
      rw [← hk, ← hmiss, if_neg hm,
        foldlM_fetch_writes src k F hF miss cm0
          (fun r hr => hne r.1 r.2 (hpos r hr))]
      rfl
    · have h2 : CacheManager.findMissingRanges (writeAll k F cm0 miss) k s e = [] := by
        rw [hmiss]
        exact findMissingRanges_writeAll k F s e cm0 hwf
      simp only [DataPipeline.fetchWithCache, hcfg]
      rw [← hk, if_pos h2]

theorem except_map_ok {α β : Type} {f : α → β} {x : Except Unit α} {b : β}
    (h : x.map f = .ok b) : ∃ a, x = .ok a ∧ b = f a := by
  cases x with
  | error u => simp [Except.map] at h
  | ok a =>
    simp only [Except.map, Except.ok.injEq] at h
    exact ⟨a, rfl, h.symm⟩

/-- A cached source whose fetch always succeeds with one row at the range
start. -/
def rowSource : Source := ⟨some [], fun a _ => .ok [(a, [("v", 1)])]⟩

/-- A cached source that always succeeds with an empty table. -/
def emptySource : Source := ⟨some [], fun _ _ => .ok []⟩

/-- Witness for `fetch_with_cache_idempotent` at a concrete source, range
and empty initial cache. -/
theorem fetch_with_cache_idempotent_witness :
    ∃ out1 : FetchOut,
      DataPipeline.fetchWithCache rowSource 0 5 [] = .ok out1 ∧
      DataPipeline.fetchWithCache rowSource 0 5 out1.cm =
        .ok ⟨out1.df, out1.cm, [], .fullHit⟩ :=
  fetch_with_cache_idempotent rowSource [] 0 5 []
    (fun a _ => [(a, [("v", 1)])]) rfl
    ⟨List.Pairwise.nil, by simp [coverageOf]⟩
    (fun _ _ => rfl) (fun a b _ => by simp)

/-- C2 as stated is refuted at a concrete input: an always-empty (and
perfectly idempotent) cached source writes nothing to the cache, so the
second identical run — on the unchanged cache state — again finds the
whole range `[0,1)` missing and performs a `source.fetch` call instead of
zero. -/
theorem fetch_idempotence_counterexample :
    DataPipeline.fetchWithCache emptySource 0 1 [] =
      .ok ⟨[], [], [(0, 1)], .miss⟩ ∧
    (DataPipeline.fetchWithCache emptySource 0 1 []).map FetchOut.calls ≠
      .ok [] := by
  refine ⟨rfl, ?_⟩
  have hv : (DataPipeline.fetchWithCache emptySource 0 1 []).map FetchOut.calls =
      .ok [(0, 1)] := rfl
  rw [hv]
  simp

/--
C1 (amended): `_fetch_with_cache` wraps no exception handling around
`source.fetch`; when fetching the first missing sub-range raises, the
error propagates — the remaining sub-ranges are not fetched, the failed
sub-range is not "skipped and continued past", and a run using the cache
aborts with the propagated failure instead of returning a best-effort
merged result.
-/
theorem fetch_failure_propagates (src : Source) (cfg : Config)
    (s e : Int) (cm : CacheState) (r : TimeRange) (rest : Coverage)
    (hcfg : src.cacheConfig = some cfg)
    (hmiss : CacheManager.findMissingRanges cm
      (CacheManager.getCacheKey cfg) s e = r :: rest)
    (hfail : src.fetch r.1 r.2 = .error ())
    (hse : s < e) :
    DataPipeline.fetchWithCache src s e cm = .error () ∧
    ∀ (srcs2 : List Source) (trs : List Transformer) (vals : List Validator)
      (now : Int) (strVal : String → Int) (snap : Option Table),
      DataPipeline.run ⟨src :: srcs2, trs, vals⟩ (.ts ⟨s, some 0⟩)
        (.ts ⟨e, some 0⟩) .mem now strVal snap cm = .error .fetchFailure := by
  have h1 : DataPipeline.fetchWithCache src s e cm = .error () := by
    simp only [DataPipeline.fetchWithCache, hcfg, hmiss]
    rw [if_neg (List.cons_ne_nil r rest)]
    rw [List.foldlM_cons, hfail]
    rfl
  refine ⟨h1, ?_⟩
  intro srcs2 trs vals now strVal snap
  simp only [DataPipeline.run, DataPipeline.parseTimestamp, List.isEmpty_cons,
    Int.sub_zero]
  rw [if_neg (by simp : ¬ (false = true))]
  rw [if_neg (by omega : ¬ (e ≤ s))]
  have h2 : fetchStage true (src :: srcs2) s e cm = .error () := by
    simp only [fetchStage, eq_self_iff_true, if_true]
    rw [h1]
    rfl
  cases hsnap : snap with
  | none =>
    rw [show decide True = true from rfl, h2]
  | some df =>
    rw [show decide True = true from rfl, h2]

/-- A cached source that fails on the sub-range starting at 0 and succeeds
elsewhere. -/
def failFirstSource : Source :=
  ⟨some [], fun a _ => if a = 0 then .error () else .ok [(3, [("x", 1)])]⟩

/-- A cache store whose only key covers `[2, 3)`. -/
def partialCache : CacheState := [([], ([(2, 3)], []))]

/-- Witness for `fetch_failure_propagates` at a concrete source, cache and
range. -/
theorem fetch_failure_propagates_witness :
    DataPipeline.fetchWithCache failFirstSource 0 5 partialCache =
      .error () ∧
    DataPipeline.run ⟨[failFirstSource], [], []⟩ (.ts ⟨0, some 0⟩)
      (.ts ⟨5, some 0⟩) .mem 0 (fun _ => 0) none partialCache =
      .error .fetchFailure :=
  ⟨(fetch_failure_propagates failFirstSource [] 0 5 partialCache (0, 2)
      [(3, 5)] rfl rfl rfl (by omega)).1,
   (fetch_failure_propagates failFirstSource [] 0 5 partialCache (0, 2)
      [(3, 5)] rfl rfl rfl (by omega)).2 [] [] [] 0 (fun _ => 0) none⟩

/-- C1 as stated is refuted at a concrete input: the request `[0, 5)` over
a cache covering `[2, 3)` has the two missing sub-ranges `[0, 2)` and
`[3, 5)`; the fetch of `[0, 2)` raises while the fetch of `[3, 5)` would
succeed, yet `_fetch_with_cache` returns the error — the failed sub-range
is not skipped, the remaining sub-range is never fetched, and the run
propagates the failure instead of returning a best-effort result. -/
theorem fetch_failure_counterexample :
    CacheManager.findMissingRanges partialCache [] 0 5 = [(0, 2), (3, 5)] ∧
    failFirstSource.fetch 3 5 = .ok [(3, [("x", 1)])] ∧
    DataPipeline.fetchWithCache failFirstSource 0 5 partialCache =
      .error () ∧
    DataPipeline.run ⟨[failFirstSource], [], []⟩ (.ts ⟨0, some 0⟩)
      (.ts ⟨5, some 0⟩) .mem 0 (fun _ => 0) none partialCache =
      .error .fetchFailure :=
  ⟨rfl, rfl, rfl, rfl⟩

/--
C3: with caching enabled, a source with no cache config bypasses the cache
entirely — a single direct `source.fetch` over the full requested range
with the cache state untouched; and for a source with a cache config, any
value returned is always the re-read of the cache store over the full
requested range in the final (post-write) cache state — raw fetch results
are never returned directly.
-/
theorem cache_bypass_and_reread (src : Source) (s e : Int)
    (cm : CacheState) :
    (src.cacheConfig = none →
      DataPipeline.fetchWithCache src s e cm =
        (src.fetch s e).map (fun df => ⟨df, cm, [(s, e)], .bypass⟩)) ∧
    (∀ cfg, src.cacheConfig = some cfg →
      ∀ out, DataPipeline.fetchWithCache src s e cm = .ok out →
        out.df = CacheManager.readCachedData out.cm
          (CacheManager.getCacheKey cfg) s e) := by
  constructor
  · intro h
    simp only [DataPipeline.fetchWithCache, h]
  · intro cfg hcfg out hout
    simp only [DataPipeline.fetchWithCache, hcfg] at hout
    by_cases hm : CacheManager.findMissingRanges cm
        (CacheManager.getCacheKey cfg) s e = []
    · rw [if_pos hm] at hout
      cases hout
      rfl
    · rw [if_neg hm] at hout
      obtain ⟨cm2, _, hb⟩ := except_map_ok hout
      subst hb
      rfl

/-- Witness for `cache_bypass_and_reread`: a config-less source is a pure
pass-through, and a cached source's result equals the store re-read. -/
theorem cache_bypass_and_reread_witness :
    DataPipeline.fetchWithCache (tableSource [(0, [("p", 1)])]) 0 5 [] =
      .ok ⟨[(0, [("p", 1)])], [], [(0, 5)], .bypass⟩ ∧
    FetchOut.df ⟨[(0, [("v", 1)])], [([], ([(0, 5)], [(0, [("v", 1)])]))],
        [(0, 5)], .miss⟩ =
      CacheManager.readCachedData [([], ([(0, 5)], [(0, [("v", 1)])]))]
        (CacheManager.getCacheKey []) 0 5 :=
  ⟨((cache_bypass_and_reread (tableSource [(0, [("p", 1)])]) 0 5 []).1
      rfl).trans rfl,
   (cache_bypass_and_reread rowSource 0 5 []).2 [] rfl
     ⟨[(0, [("v", 1)])], [([], ([(0, 5)], [(0, [("v", 1)])]))],
        [(0, 5)], .miss⟩ rfl⟩

/--
C4: with caching enabled, the logged classification is exactly: zero
missing ranges → full hit, answered by a cache read with no fetch call and
no cache change; exactly one missing range equal to the whole request →
miss; any other missing set → partial hit.  Whatever the classification,
the data returned is the store re-read for the full request, so the
classification has no effect on the data. -/
theorem cache_hit_classification (src : Source) (cfg : Config)
    (s e : Int) (cm : CacheState)
    (hcfg : src.cacheConfig = some cfg) :
    (CacheManager.findMissingRanges cm (CacheManager.getCacheKey cfg) s e = [] →
      DataPipeline.fetchWithCache src s e cm =
        .ok ⟨CacheManager.readCachedData cm (CacheManager.getCacheKey cfg) s e,
          cm, [], .fullHit⟩) ∧
    (∀ out, DataPipeline.fetchWithCache src s e cm = .ok out →
      out.hc =
        (if CacheManager.findMissingRanges cm
            (CacheManager.getCacheKey cfg) s e = [] then HitClass.fullHit
         else if CacheManager.findMissingRanges cm
            (CacheManager.getCacheKey cfg) s e = [(s, e)] then HitClass.miss
         else HitClass.partialHit) ∧
      out.df = CacheManager.readCachedData out.cm
        (CacheManager.getCacheKey cfg) s e) := by
  constructor
  · intro hm
    simp only [DataPipeline.fetchWithCache, hcfg]
    rw [if_pos hm]
  · intro out hout
    simp only [DataPipeline.fetchWithCache, hcfg] at hout
    by_cases hm : CacheManager.findMissingRanges cm
        (CacheManager.getCacheKey cfg) s e = []
    · rw [if_pos hm] at hout
      cases hout
      rw [if_pos hm]
      exact ⟨rfl, rfl⟩
    · rw [if_neg hm] at hout
      obtain ⟨cm2, _, hb⟩ := except_map_ok hout
      subst hb
      rw [if_neg hm]
      exact ⟨rfl, rfl⟩

/-- Witness for `cache_hit_classification`: a full hit on a covered cache
(no fetch call), and a miss classification when the whole range `[0, 5)`
is missing. -/
theorem cache_hit_classification_witness :
    DataPipeline.fetchWithCache rowSource 0 3
        [([], ([(0, 5)], [(1, [("v", 1)])]))] =
      .ok ⟨CacheManager.readCachedData [([], ([(0, 5)], [(1, [("v", 1)])]))]
          (CacheManager.getCacheKey []) 0 3,
        [([], ([(0, 5)], [(1, [("v", 1)])]))], [], .fullHit⟩ ∧
    FetchOut.hc ⟨[(0, [("v", 1)])], [([], ([(0, 5)], [(0, [("v", 1)])]))],
        [(0, 5)], .miss⟩ =
      (if CacheManager.findMissingRanges ([] : CacheState)
          (CacheManager.getCacheKey []) 0 5 = [] then HitClass.fullHit
       else if CacheManager.findMissingRanges ([] : CacheState)
          (CacheManager.getCacheKey []) 0 5 = [(0, 5)] then HitClass.miss
       else HitClass.partialHit) :=
  ⟨(cache_hit_classification rowSource [] 0 3
      [([], ([(0, 5)], [(1, [("v", 1)])]))] rfl).1 rfl,
   ((cache_hit_classification rowSource [] 0 5 [] rfl).2
      ⟨[(0, [("v", 1)])], [([], ([(0, 5)], [(0, [("v", 1)])]))],
        [(0, 5)], .miss⟩ rfl).1⟩

/--
C5: `run` normalizes both bounds to UTC — a timezone-aware instant is
converted (its UTC offset subtracted), a naive instant is assumed to
already be UTC — and whenever the normalized end is not after the
normalized start it fails with the invalid-range `ValueError`, uniformly
in the cache mode, the snapshot file content, the cache store state and
the sources' behavior: no fetch, cache access or snapshot read/write can
have taken place.
-/
theorem run_invalid_range (p : DataPipeline) (hs : p.sources ≠ [])
    (a b : TSInput) (carg : CacheArg) (now : Int) (strVal : String → Int)
    (snap : Option Table) (cm0 : CacheState) :
    (∀ w ofs, DataPipeline.parseTimestamp now strVal (.ts ⟨w, some ofs⟩) =
      ⟨w - ofs, some 0⟩) ∧
    (∀ w, DataPipeline.parseTimestamp now strVal (.ts ⟨w, none⟩) =
      ⟨w, some 0⟩) ∧
    ((DataPipeline.parseTimestamp now strVal b).wall ≤
        (DataPipeline.parseTimestamp now strVal a).wall →
      DataPipeline.run p a b carg now strVal snap cm0 =
        .error .invalidRange) := by
  refine ⟨fun w ofs => rfl, fun w => rfl, fun hle => ?_⟩
  simp only [DataPipeline.run]
  rw [if_neg (by
    intro hc
    exact hs (List.isEmpty_iff.mp hc))]
  rw [if_pos hle]

/-- Witness for `run_invalid_range`: an aware start `wall 5, offset 60`
normalizes to `-55` UTC and a naive end `-60` to `-60` UTC, so the run
fails with the invalid-range error. -/
theorem run_invalid_range_witness :
    DataPipeline.run ⟨[tableSource [(0, [("p", 1)])]], [], []⟩
      (.ts ⟨5, some 60⟩) (.ts ⟨-60, none⟩) .off 0 (fun _ => 0) none [] =
      .error .invalidRange :=
  (run_invalid_range ⟨[tableSource [(0, [("p", 1)])]], [], []⟩ (by simp)
    (.ts ⟨5, some 60⟩) (.ts ⟨-60, none⟩) .off 0 (fun _ => 0) none []).2.2
    (by norm_num [DataPipeline.parseTimestamp])

theorem mem_insertTs : ∀ (l : List Int) (t u : Int),
    (u ∈ insertTs t l ↔ u = t ∨ u ∈ l) := by
  intro l
  induction l with
  | nil =>
    intro t u
    simp [insertTs]
  | cons v vs ih =>
    intro t u
    simp only [insertTs]
    split_ifs with h1 h2
    · subst h1
      simp [List.mem_cons]
    · simp [List.mem_cons]
    · rw [List.mem_cons, ih, List.mem_cons]
      tauto

theorem mem_foldr_insertTs : ∀ (l : List Int) (u : Int),
    (u ∈ l.foldr insertTs [] ↔ u ∈ l) := by
  intro l
  induction l with
  | nil => intro u; simp
  | cons v vs ih =>
    intro u
    rw [List.foldr_cons, mem_insertTs, ih, List.mem_cons]

/-- The merged time index is the union of the tables' indices. -/
theorem mem_tsUnion (dfs : List Table) (t : Int) :
    t ∈ tsUnion dfs ↔ ∃ df ∈ dfs, ∃ row, (t, row) ∈ df := by
  rw [tsUnion, mem_foldr_insertTs]
  simp only [List.mem_flatMap, List.mem_map]
  constructor
  · rintro ⟨df, hdf, x, hx, hfst⟩
    exact ⟨df, hdf, x.2, by rwa [show (t, x.2) = x from Prod.ext hfst.symm rfl]⟩
  · rintro ⟨df, hdf, row, hrow⟩
    exact ⟨df, hdf, (t, row), hrow, rfl⟩

theorem lookup_map_self (f : Int → List (String × ℚ)) :
    ∀ (ts : List Int) (t : Int), t ∈ ts →
    List.lookup t (ts.map (fun u => (u, f u))) = some (f t) := by
  intro ts
  induction ts with
  | nil =>
    intro t ht
    exact absurd ht (List.not_mem_nil t)
  | cons u us ih =>
    intro t ht
    rw [List.map_cons]
    by_cases he : t = u
    · subst he
      simp [List.lookup]
    · rw [List.mem_cons] at ht
      have ht' : t ∈ us := ht.resolve_left he
      simp only [List.lookup, beq_eq_false_iff_ne.mpr he]
      exact ih t ht'

/-- The merged table's index is exactly the union of the indices. -/
theorem mergeTables_fst (dfs : List Table) :
    (mergeTables dfs).map Prod.fst = tsUnion dfs := by
  rw [mergeTables, List.map_map]
  show List.map id (tsUnion dfs) = tsUnion dfs
  exact List.map_id _

/-- The merged table's row at any union timestamp is the concatenation of
each table's fields there — fields of tables with no row at `t` are simply
absent (null), with no interpolation. -/
theorem mergeTables_lookup (dfs : List Table) (t : Int)
    (h : t ∈ tsUnion dfs) :
    (mergeTables dfs).lookup t =
      some (dfs.flatMap (fun df => rowAt df t)) :=
  lookup_map_self (fun u => dfs.flatMap (fun df => rowAt df u)) (tsUnion dfs) t h

/-- With caching off, fetching stub sources keeps exactly the non-empty
tables in configuration order, touches no cache state, and issues one
fetch of the full requested range per source. -/
theorem fetchStage_off_tableSources (s e : Int) :
    ∀ (dfs : List Table) (cm0 : CacheState),
    fetchStage false (dfs.map tableSource) s e cm0 =
      .ok (dfs.filter (fun df => decide (df ≠ [])), cm0,
        dfs.map (fun _ => (s, e))) := by
  intro dfs
  induction dfs with
  | nil =>
    intro cm0
    rfl
  | cons df dfs ih =>
    intro cm0
    simp only [List.map_cons, fetchStage]
    rw [if_neg Bool.false_ne_true]
    show (Except.ok (df, cm0, [(s, e)]) >>= _) = _
    rw [show ∀ (x : Table × CacheState × List TimeRange)
        (g : Table × CacheState × List TimeRange →
          Except Unit (List Table × CacheState × List TimeRange)),
        Except.ok x >>= g = g x from fun _ _ => rfl]
    rw [ih cm0]
    rw [show ∀ (x : List Table × CacheState × List TimeRange)
        (g : List Table × CacheState × List TimeRange →
          Except Unit (List Table × CacheState × List TimeRange)),
        Except.ok x >>= g = g x from fun _ _ => rfl]
    by_cases hdf : df = []
    · subst hdf
      simp [List.filter_cons]
      rfl
    · simp [List.filter_cons, hdf]
      rfl

/-- Evaluation of `run` over stub sources with fixed tables when the range
cache is not in use (cache off, or a snapshot path with no existing file):
the non-empty tables are kept in order, merged, transformed and validated;
with zero non-empty results an empty table is returned before the
transform, validate and snapshot-write steps. -/
theorem run_tableSources (dfs : List Table) (hdfs : dfs ≠ [])
    (trs : List Transformer) (vals : List Validator) (now : Int)
    (strVal : String → Int) (s e : Int) (hse : s < e) (carg : CacheArg)
    (hcarg : carg ≠ .mem) (snap : Option Table)
    (hsnap : carg = .snap → snap = none) (cm0 : CacheState) :
    DataPipeline.run ⟨dfs.map tableSource, trs, vals⟩ (.ts ⟨s, some 0⟩)
      (.ts ⟨e, some 0⟩) carg now strVal snap cm0 =
      (if dfs.filter (fun df => decide (df ≠ [])) = []
       then .ok ⟨[], dfs.map (fun _ => (s, e)), none, []⟩
       else .ok
         ⟨trs.foldl (fun acc tr => tr acc)
            (mergeTables (dfs.filter (fun df => decide (df ≠ [])))),
          dfs.map (fun _ => (s, e)),
          (if carg = .snap then
            some (trs.foldl (fun acc tr => tr acc)
              (mergeTables (dfs.filter (fun df => decide (df ≠ [])))))
           else none),
          vals.map (fun v => v (trs.foldl (fun acc tr => tr acc)
            (mergeTables (dfs.filter (fun df => decide (df ≠ []))))))⟩) := by
  simp only [DataPipeline.run, DataPipeline.parseTimestamp, Int.sub_zero]
  rw [if_neg (by
    intro hc
    exact hdfs (List.map_eq_nil_iff.mp (List.isEmpty_iff.mp hc)))]
  rw [if_neg (by omega : ¬ (e ≤ s))]
  cases carg with
  | mem => exact absurd rfl hcarg
  | off =>
    rw [show decide (CacheArg.off = CacheArg.mem) = false from rfl]
    rw [fetchStage_off_tableSources s e dfs cm0]
    by_cases hf : dfs.filter (fun df => decide (df ≠ [])) = []
    · rw [if_pos hf, hf]
      rfl
    · rw [if_neg hf]
      simp only [List.isEmpty_iff, hf]
      rw [if_neg not_false]
  | snap =>
    rw [hsnap rfl]
    rw [show decide (CacheArg.snap = CacheArg.mem) = false from rfl]
    rw [fetchStage_off_tableSources s e dfs cm0]
    by_cases hf : dfs.filter (fun df => decide (df ≠ [])) = []
    · rw [if_pos hf, hf]
      rfl
    · rw [if_neg hf]
      simp only [List.isEmpty_iff, hf]
      rw [if_neg not_false]

/--
C6: in the merge stage, `run` combines exactly the non-empty per-source
tables into a single table by full outer join on the union of their
timestamps — each merged row concatenates the fields every contributing
table has at that timestamp, fields of tables with no row there being
absent (null), with no interpolation; and when zero sources returned data
the result is an empty table with no error raised.
-/
theorem run_merges_outer_join (dfs : List Table) (hdfs : dfs ≠ [])
    (vals : List Validator) (now : Int) (strVal : String → Int)
    (s e : Int) (hse : s < e) (cm0 : CacheState) :
    (DataPipeline.run ⟨dfs.map tableSource, [], vals⟩ (.ts ⟨s, some 0⟩)
        (.ts ⟨e, some 0⟩) .off now strVal none cm0 =
      (if dfs.filter (fun df => decide (df ≠ [])) = []
       then .ok ⟨[], dfs.map (fun _ => (s, e)), none, []⟩
       else .ok ⟨mergeTables (dfs.filter (fun df => decide (df ≠ []))),
         dfs.map (fun _ => (s, e)), none,
         vals.map (fun v =>
           v (mergeTables (dfs.filter (fun df => decide (df ≠ [])))))⟩)) ∧
    ((mergeTables (dfs.filter (fun df => decide (df ≠ [])))).map Prod.fst =
      tsUnion (dfs.filter (fun df => decide (df ≠ [])))) ∧
    (∀ t, t ∈ tsUnion (dfs.filter (fun df => decide (df ≠ []))) ↔
      ∃ df ∈ dfs.filter (fun df => decide (df ≠ [])), ∃ row, (t, row) ∈ df) ∧
    (∀ t, t ∈ tsUnion (dfs.filter (fun df => decide (df ≠ []))) →
      (mergeTables (dfs.filter (fun df => decide (df ≠ [])))).lookup t =
        some ((dfs.filter (fun df => decide (df ≠ []))).flatMap
          (fun df => rowAt df t))) := by
  refine ⟨?_, mergeTables_fst _, fun t => mem_tsUnion _ t,
    fun t ht => mergeTables_lookup _ t ht⟩
  exact (run_tableSources dfs hdfs [] vals now strVal s e hse .off
    (by decide) none (fun h => rfl) cm0).trans (by simp [List.foldl_nil])

/-- The first sample table: `{price}` over five hourly timestamps
`[Jan1 00:00, Jan1 05:00)`. -/
def priceT : Table :=
  [(0, [("price", 10)]), (60, [("price", 20)]), (120, [("price", 30)]),
   (180, [("price", 40)]), (240, [("price", 50)])]

/-- The second sample table: `{load}` over the last three of those
timestamps, `[Jan1 02:00, Jan1 05:00)`. -/
def loadT : Table :=
  [(120, [("load", 100)]), (180, [("load", 200)]), (240, [("load", 300)])]

/-- Witness for `run_merges_outer_join` on the spec's example: a 5-row
`{price}` table and a 3-row `{load}` table merge into 5 rows with `load`
absent (null) at the first two timestamps. -/
theorem run_merges_outer_join_witness :
    DataPipeline.run ⟨[tableSource priceT, tableSource loadT], [], []⟩
      (.ts ⟨0, some 0⟩) (.ts ⟨300, some 0⟩) .off 0 (fun _ => 0) none [] =
      .ok ⟨mergeTables [priceT, loadT], [(0, 300), (0, 300)], none, []⟩ ∧
    (mergeTables [priceT, loadT]).length = 5 ∧
    rowAt (mergeTables [priceT, loadT]) 0 = [("price", 10)] ∧
    rowAt (mergeTables [priceT, loadT]) 60 = [("price", 20)] ∧
    (rowAt (mergeTables [priceT, loadT]) 0).lookup "load" = none ∧
    (rowAt (mergeTables [priceT, loadT]) 60).lookup "load" = none ∧
    rowAt (mergeTables [priceT, loadT]) 120 = [("price", 30), ("load", 100)] := by
  refine ⟨?_, rfl, rfl, rfl, rfl, rfl, rfl⟩
  exact ((run_merges_outer_join [priceT, loadT] (by simp) [] 0 (fun _ => 0)
    0 300 (by omega) []).1).trans rfl

/--
C7 (amended): with a snapshot file path: if the file exists, `run` returns
its loaded contents with no source fetch, no validation and no snapshot
write, for any configured sources, transformers and validators; if the
file does not exist and at least one source returned non-empty data, `run`
computes the result through fetch, merge, transform and validate and
writes that result to the path.  (When no source returned data, an empty
table is returned without a snapshot write — see the counterexample.)
-/
theorem run_snapshot (now : Int) (strVal : String → Int) (cm0 : CacheState) :
    (∀ (p : DataPipeline) (a b : TSInput) (df : Table),
      p.sources ≠ [] →
      (DataPipeline.parseTimestamp now strVal a).wall <
        (DataPipeline.parseTimestamp now strVal b).wall →
      DataPipeline.run p a b .snap now strVal (some df) cm0 =
        .ok ⟨df, [], none, []⟩) ∧
    (∀ (dfs : List Table) (trs : List Transformer) (vals : List Validator)
       (s e : Int), s < e → dfs ≠ [] →
      dfs.filter (fun df => decide (df ≠ [])) ≠ [] →
      DataPipeline.run ⟨dfs.map tableSource, trs, vals⟩ (.ts ⟨s, some 0⟩)
        (.ts ⟨e, some 0⟩) .snap now strVal none cm0 =
        .ok ⟨trs.foldl (fun acc tr => tr acc)
            (mergeTables (dfs.filter (fun df => decide (df ≠ [])))),
          dfs.map (fun _ => (s, e)),
          some (trs.foldl (fun acc tr => tr acc)
            (mergeTables (dfs.filter (fun df => decide (df ≠ []))))),
          vals.map (fun v => v (trs.foldl (fun acc tr => tr acc)
            (mergeTables (dfs.filter (fun df => decide (df ≠ []))))))⟩) := by
  constructor
  · intro p a b df hs hlt
    simp only [DataPipeline.run]
    rw [if_neg (by
      intro hc
      exact hs (List.isEmpty_iff.mp hc))]
    rw [if_neg (by omega :
      ¬ ((DataPipeline.parseTimestamp now strVal b).wall ≤
        (DataPipeline.parseTimestamp now strVal a).wall))]
  · intro dfs trs vals s e hse hdfs hf
    refine (run_tableSources dfs hdfs trs vals now strVal s e hse .snap
      (by decide) none (fun _ => rfl) cm0).trans ?_
    rw [if_neg hf]
    simp

/-- Witness for `run_snapshot`: an existing snapshot short-circuits the
whole pipeline, and on a missing snapshot the fresh result is computed and
recorded as written. -/
theorem run_snapshot_witness :
    DataPipeline.run ⟨[tableSource priceT], [], []⟩ (.ts ⟨0, some 0⟩)
      (.ts ⟨300, some 0⟩) .snap 0 (fun _ => 0)
      (some [(7, [("cached", 1)])]) [] =
      .ok ⟨[(7, [("cached", 1)])], [], none, []⟩ ∧
    DataPipeline.run ⟨[tableSource priceT], [], []⟩ (.ts ⟨0, some 0⟩)
      (.ts ⟨300, some 0⟩) .snap 0 (fun _ => 0) none [] =
      .ok ⟨mergeTables [priceT], [(0, 300)], some (mergeTables [priceT]), []⟩ :=
  ⟨(run_snapshot 0 (fun _ => 0) []).1 ⟨[tableSource priceT], [], []⟩
      (.ts ⟨0, some 0⟩) (.ts ⟨300, some 0⟩) [(7, [("cached", 1)])]
      (by simp) (by norm_num [DataPipeline.parseTimestamp]),
   ((run_snapshot 0 (fun _ => 0) []).2 [priceT] [] [] 0 300 (by omega)
      (by simp) (by decide)).trans rfl⟩

/-- A validator that always reports failure. -/
def alwaysInvalid : Validator := fun _ => ⟨false, ["invalid"], []⟩

/-- C7 as stated is refuted at a concrete input: the snapshot file is
absent and the only source returns no data, so `run` returns an empty
table having skipped transform and validation (no report from the
configured validator) and writes no snapshot (`wrote = none`), although
the claim requires the computed result to pass through validation and be
written to the path. -/
theorem snapshot_not_written_counterexample :
    DataPipeline.run ⟨[tableSource []], [], [alwaysInvalid]⟩ (.ts ⟨0, some 0⟩)
      (.ts ⟨60, some 0⟩) .snap 0 (fun _ => 0) none [] =
      .ok ⟨[], [(0, 60)], none, []⟩ := rfl

/--
C8: `run` invokes each configured validator on the fully transformed
table — the merge result after all transformers applied in declared
order — and the table `run` returns is that same table for every validator
list, regardless of any `is_valid = false`, errors or warnings: validation
findings never change the result and never abort the run.
-/
theorem validators_advisory (dfs : List Table) (trs : List Transformer)
    (vals : List Validator) (now : Int) (strVal : String → Int)
    (s e : Int) (hse : s < e) (cm0 : CacheState)
    (hf : dfs.filter (fun df => decide (df ≠ [])) ≠ []) :
    ∃ r : RunOut,
      DataPipeline.run ⟨dfs.map tableSource, trs, vals⟩ (.ts ⟨s, some 0⟩)
        (.ts ⟨e, some 0⟩) .off now strVal none cm0 = .ok r ∧
      r.table = trs.foldl (fun acc tr => tr acc)
        (mergeTables (dfs.filter (fun df => decide (df ≠ [])))) ∧
      r.reports = vals.map (fun v => v r.table) ∧
      ∀ vals' : List Validator,
        DataPipeline.run ⟨dfs.map tableSource, trs, vals'⟩ (.ts ⟨s, some 0⟩)
          (.ts ⟨e, some 0⟩) .off now strVal none cm0 =
        .ok ⟨r.table, dfs.map (fun _ => (s, e)), none,
          vals'.map (fun v => v r.table)⟩ := by
  have hdfs : dfs ≠ [] := by
    intro h
    exact hf (by rw [h]; rfl)
  have hrun : ∀ vs : List Validator,
      DataPipeline.run ⟨dfs.map tableSource, trs, vs⟩ (.ts ⟨s, some 0⟩)
        (.ts ⟨e, some 0⟩) .off now strVal none cm0 =
      .ok ⟨trs.foldl (fun acc tr => tr acc)
          (mergeTables (dfs.filter (fun df => decide (df ≠ [])))),
        dfs.map (fun _ => (s, e)), none,
        vs.map (fun v => v (trs.foldl (fun acc tr => tr acc)
          (mergeTables (dfs.filter (fun df => decide (df ≠ []))))))⟩ := by
    intro vs
    refine (run_tableSources dfs hdfs trs vs now strVal s e hse .off
      (by decide) none (fun h => by cases h) cm0).trans ?_
    rw [if_neg hf]
    simp
  exact ⟨_, hrun vals, rfl, rfl, fun vals' => hrun vals'⟩

/-- Witness for `validators_advisory`: an always-failing validator is run
on the merged table, its finding is reported, and the returned table is
the same merged table an empty validator list yields. -/
theorem validators_advisory_witness :
    ∃ r : RunOut,
      DataPipeline.run ⟨[tableSource priceT], [], [alwaysInvalid]⟩
        (.ts ⟨0, some 0⟩) (.ts ⟨300, some 0⟩) .off 0 (fun _ => 0) none [] =
        .ok r ∧
      r.table = List.foldl (fun acc tr => tr acc)
        (mergeTables ([priceT].filter (fun df => decide (df ≠ []))))
        ([] : List Transformer) ∧
      r.reports = [alwaysInvalid].map (fun v => v r.table) ∧
      ∀ vals' : List Validator,
        DataPipeline.run ⟨[tableSource priceT], [], vals'⟩ (.ts ⟨0, some 0⟩)
          (.ts ⟨300, some 0⟩) .off 0 (fun _ => 0) none [] =
        .ok ⟨r.table, [priceT].map (fun _ => (0, 300)), none,
          vals'.map (fun v => v r.table)⟩ :=
  validators_advisory [priceT] [] [alwaysInvalid] 0 (fun _ => 0) 0 300
    (by omega) [] (by decide)

theorem round3_idem (q : ℚ) : round3 (round3 q) = round3 q := by
  unfold round3
  rw [div_mul_cancel₀ _ (by norm_num : (1000 : ℚ) ≠ 0), round_intCast]

/--
C9: `ResampleTransformer.transform` rounds every value of its output to 3
decimal places after resampling and gap-filling (whatever the configured
method): every value it emits is a fixed point of 3-decimal rounding; and
values are not preserved exactly even when the input already matches the
target frequency — `1.2346` on an exact hourly grid comes back as
`1.235`.
-/
theorem resample_rounds_values :
    (∀ (freq : Int) (method : FillMethod) (df : RDF),
      ∀ v ∈ (ResampleTransformer.transform freq method df).values,
        round3 v = v) ∧
    (gridOf 60 [0, 60] = [0, 60] ∧
      ResampleTransformer.transform 60 .linear
          ⟨[0, 60], [[some (12346/10000), some 1]]⟩ ≠
        ⟨[0, 60], [[some (12346/10000), some 1]]⟩) := by
  constructor
  · intro freq method df v hv
    simp only [ResampleTransformer.transform, RDF.values,
      List.mem_flatMap] at hv
    obtain ⟨col, hcol, hvcol⟩ := hv
    rw [List.mem_map] at hcol
    obtain ⟨col0, _, hcol0⟩ := hcol
    subst hcol0
    rw [List.mem_filterMap] at hvcol
    obtain ⟨o, ho, hov⟩ := hvcol
    rw [List.mem_map] at ho
    obtain ⟨o0, _, ho0⟩ := ho
    subst ho0
    cases o0 with
    | none => simp at hov
    | some u =>
      simp only [Option.map_some', id_eq] at hov
      cases hov
      exact round3_idem u
  · refine ⟨rfl, ?_⟩
    intro h
    have hcols := congrArg RDF.cols h
    have hLHS : (ResampleTransformer.transform 60 .linear
        ⟨[0, 60], [[some (12346/10000), some 1]]⟩).cols =
        [[some (round3 (12346/10000)), some (round3 1)]] := rfl
    rw [hLHS] at hcols
    simp only [List.cons.injEq, Option.some.injEq, and_true] at hcols
    have hr : round (12346/10000 * 1000 : ℚ) = 1235 := by
      rw [round_eq]
      norm_num
    have h35 : round3 (12346/10000 : ℚ) = 1235/1000 := by
      unfold round3
      rw [hr]
      norm_num
    rw [h35] at hcols
    norm_num at hcols

/-- Witness for `resample_rounds_values` at a concrete table: the first
output value of the hourly resample is a fixed point of 3-decimal
rounding. -/
theorem resample_rounds_values_witness :
    round3 (12346/10000 : ℚ) ∈ (ResampleTransformer.transform 60 .linear
      ⟨[0, 60], [[some (12346/10000), some 1]]⟩).values ∧
    round3 (round3 (12346/10000 : ℚ)) = round3 (12346/10000 : ℚ) := by
  have hm : round3 (12346/10000 : ℚ) ∈ (ResampleTransformer.transform 60
      .linear ⟨[0, 60], [[some (12346/10000), some 1]]⟩).values := by
    rw [show (ResampleTransformer.transform 60 .linear
        ⟨[0, 60], [[some (12346/10000), some 1]]⟩).values =
      [round3 (12346/10000), round3 1] from rfl]
    exact List.mem_cons_self _ _
  exact ⟨hm, resample_rounds_values.1 60 .linear _ _ hm⟩

/--
C10: `run` accepts the literal string `"today"` as a start or end bound,
interpreting it as the current date at midnight (00:00) UTC — the largest
day multiple not exceeding the current instant; any other string is parsed
as a timestamp localized to UTC; and a run invoked with `"today"` behaves
exactly as one invoked with that midnight instant.
-/
theorem parse_today (now : Int) (strVal : String → Int) :
    (DataPipeline.parseTimestamp now strVal (.str "today") =
      ⟨minutesPerDay * Int.fdiv now minutesPerDay, some 0⟩) ∧
    (minutesPerDay * Int.fdiv now minutesPerDay ≤ now ∧
      now < minutesPerDay * Int.fdiv now minutesPerDay + minutesPerDay) ∧
    (∀ s, s ≠ "today" →
      DataPipeline.parseTimestamp now strVal (.str s) = ⟨strVal s, some 0⟩) ∧
    (∀ (p : DataPipeline) (b : TSInput) (carg : CacheArg)
       (snap : Option Table) (cm0 : CacheState),
      DataPipeline.run p (.str "today") b carg now strVal snap cm0 =
        DataPipeline.run p
          (.ts ⟨minutesPerDay * Int.fdiv now minutesPerDay, some 0⟩) b carg
          now strVal snap cm0) := by
  have hfd : Int.fdiv now minutesPerDay = now / minutesPerDay :=
    Int.fdiv_eq_ediv now (by norm_num [minutesPerDay])
  refine ⟨by simp [DataPipeline.parseTimestamp], ?_, ?_, ?_⟩
  · rw [hfd]
    simp only [minutesPerDay]
    omega
  · intro s hs
    simp [DataPipeline.parseTimestamp, hs]
  · intro p b carg snap cm0
    have hp : DataPipeline.parseTimestamp now strVal (.str "today") =
        DataPipeline.parseTimestamp now strVal
          (.ts ⟨minutesPerDay * Int.fdiv now minutesPerDay, some 0⟩) := by
      simp [DataPipeline.parseTimestamp]
    simp only [DataPipeline.run, hp]

/-- Witness for `parse_today` at `now = 3000` minutes: `"today"` becomes
midnight `2880`, within a day of `now`; another string goes through the
parse-and-localize path; and a run called with `"today"` equals the run
called with `2880` UTC. -/
theorem parse_today_witness :
    DataPipeline.parseTimestamp 3000 (fun _ => 77) (.str "today") =
      ⟨minutesPerDay * Int.fdiv 3000 minutesPerDay, some 0⟩ ∧
    minutesPerDay * Int.fdiv 3000 minutesPerDay = 2880 ∧
    DataPipeline.parseTimestamp 3000 (fun _ => 77) (.str "2024-01-01") =
      ⟨77, some 0⟩ ∧
    DataPipeline.run ⟨[tableSource priceT], [], []⟩ (.str "today")
      (.ts ⟨3000, some 0⟩) .off 3000 (fun _ => 77) none [] =
      DataPipeline.run ⟨[tableSource priceT], [], []⟩
        (.ts ⟨minutesPerDay * Int.fdiv 3000 minutesPerDay, some 0⟩)
        (.ts ⟨3000, some 0⟩) .off 3000 (fun _ => 77) none [] :=
  ⟨(parse_today 3000 (fun _ => 77)).1, rfl,
   (parse_today 3000 (fun _ => 77)).2.2.1 "2024-01-01" (by decide),
   (parse_today 3000 (fun _ => 77)).2.2.2 ⟨[tableSource priceT], [], []⟩
     (.ts ⟨3000, some 0⟩) .off none []⟩
